import Mathlib

/-!
Verification of the torchquad numerical-integration engine specification.

The repository's `src/` ships only the example notebook
(`src/notebooks/Example_notebook.ipynb`); the integration engine itself
(the `Trapezoid`, `Simpson` and `MonteCarlo` integrators imported there)
is not part of `src/`.  The engine is therefore modelled from the
specification: every definition below whose doc comment starts with
`Modelled from the spec:` is a faithful shallow embedding of the
corresponding spec section.  Real arithmetic is embedded with `ℚ`
(exact rational arithmetic standing in for ideal real arithmetic, the
level at which the spec states its algebraic properties).
-/

namespace Torchquad

/-- Modelled from the spec: the closed set of quadrature rules offered by the
engine (spec section 2 and design note on a `QuadratureRule` sum type). -/
inductive Rule where
  | Trapezoid
  | Simpson
  | MonteCarlo
deriving DecidableEq

/-- Modelled from the spec: the error kinds of section 7 that the claims
exercise. -/
inductive IntegrationError where
  | InvalidDomain
  | InvalidPointCount
  | IntegrandShapeMismatch
deriving DecidableEq

/-! ### PointCount Resolver (spec section 4.1) -/

/-- Rounding predicate for the integer `D`-th root: `rootRoundProp N D k` holds
when the real `D`-th root of `N` is strictly below `k + 1/2`, i.e.
`2^D * N < (2*k+1)^D`.  The least such `k` is `round (N^(1/D))`. -/
def rootRoundProp (N D k : ℕ) : Prop := 2 ^ D * N < (2 * k + 1) ^ D

instance (N D k : ℕ) : Decidable (rootRoundProp N D k) := by
  unfold rootRoundProp; infer_instance

/-- Bounded linear search for the least `k ≥ start` satisfying
`rootRoundProp N D k`, with explicit fuel. -/
def rootRoundAux (N D : ℕ) : ℕ → ℕ → ℕ
  | 0, start => start
  | fuel + 1, start =>
      if rootRoundProp N D start then start else rootRoundAux N D fuel (start + 1)

/-- Modelled from the spec: `perDimensionCount = round(requestedN^(1/D))`
(spec section 4.1), computed exactly as the least `k` with
`2^D * N < (2*k+1)^D`.  (For `D ≥ 2` parity makes `2^D*N = (2k+1)^D`
impossible and for `D = 1` the root is an integer, so ties in the rounding
never occur and the rounding mode is irrelevant.) -/
def rootRound (N D : ℕ) : ℕ := rootRoundAux N D (N + 2) 0

/-- Modelled from the spec: the resolver's minimum per-dimension count for
each rule — 2 for Trapezoid, 3 for Simpson, 1 sample for Monte Carlo
(spec sections 4.1 and 7). -/
def minPoints : Rule → ℕ
  | .Trapezoid => 2
  | .Simpson => 3
  | .MonteCarlo => 1

/-- Modelled from the spec: if the rule is Simpson and the per-dimension
count is even, increment by 1 to force oddness (spec section 4.1). -/
def adjustCount : Rule → ℕ → ℕ
  | .Simpson, n => if n % 2 = 0 then n + 1 else n
  | _, n => n

/-- Modelled from the spec: the PointCount Resolver (spec section 4.1).
Returns `(perDimensionCount, effectiveTotal)` for grid rules — with
`effectiveTotal = perDimensionCount ^ D` — and `(requestedN, requestedN)`
for Monte Carlo; fails with `InvalidPointCount` below the rule's minimum. -/
def resolvePointCount (rule : Rule) (N D : ℕ) :
    Except IntegrationError (ℕ × ℕ) :=
  match rule with
  | .MonteCarlo =>
      if N < 1 then .error .InvalidPointCount else .ok (N, N)
  | _ =>
      let n := adjustCount rule (rootRound N D)
      if n < minPoints rule then .error .InvalidPointCount else .ok (n, n ^ D)

/-! ### Grid Builder (spec section 4.2) -/

/-- Modelled from the spec: the per-dimension step size
`h = (b - a) / (n - 1)` (spec section 4.2). -/
def stepSize (a b : ℚ) (n : ℕ) : ℚ := (b - a) / ((n : ℚ) - 1)

/-- Modelled from the spec: the `i`-th of `n` equally spaced nodes from `a`
to `b` inclusive (spec section 4.2). -/
def gridNode (a b : ℚ) (n i : ℕ) : ℚ := a + (i : ℚ) * stepSize a b n

/-- Modelled from the spec: the 1-D node sequence of a dimension —
`n` equally spaced nodes from `a` to `b` inclusive (spec section 4.2). -/
def linspace (a b : ℚ) (n : ℕ) : List ℚ := (List.range n).map (gridNode a b n)

/-- Cartesian product of a list of per-dimension choice lists, the outer
dimension varying slowest (spec section 4.2). -/
def cartesianProduct {α : Type} : List (List α) → List (List α)
  | [] => [[]]
  | choices :: rest =>
      (choices.map fun x => (cartesianProduct rest).map fun p => x :: p).flatten

/-- Modelled from the spec: the full tensor-product evaluation point set —
the Cartesian product across all dimensions of the per-dimension node
sequences (spec section 4.2). -/
def gridPoints (domain : List (ℚ × ℚ)) (n : ℕ) : List (List ℚ) :=
  cartesianProduct (domain.map fun ab => linspace ab.1 ab.2 n)

/-! ### Weighting (spec section 4.5) -/

/-- Modelled from the spec: the composite Trapezoid weight as a pure function
of (index, count, step) — `h/2` at the two boundary nodes, `h` at interior
nodes (spec sections 4.5 and 9). -/
def trapezoidWeight (n : ℕ) (h : ℚ) (i : ℕ) : ℚ :=
  if i = 0 ∨ i = n - 1 then h / 2 else h

/-- Modelled from the spec: the composite Simpson weight as a pure function
of (index, count, step) — `h/3` at the two boundary nodes, `4h/3` at
odd-indexed interior nodes, `2h/3` at even-indexed interior nodes, valid
only for odd `n` (spec sections 4.5 and 9). -/
def simpsonWeight (n : ℕ) (h : ℚ) (i : ℕ) : ℚ :=
  if i = 0 ∨ i = n - 1 then h / 3
  else if i % 2 = 1 then 4 * h / 3
  else 2 * h / 3

/-- Modelled from the spec: rule dispatch of the 1-D weight function
(spec design note, section 9).  Monte Carlo has no per-node grid weight;
its branch is never used by the grid path. -/
def weight1D : Rule → ℕ → ℚ → ℕ → ℚ
  | .Trapezoid => trapezoidWeight
  | .Simpson => simpsonWeight
  | .MonteCarlo => fun _ _ _ => 0

/-- Modelled from the spec: one dimension's nodes paired with their 1-D
composite weights (node `i`, weight of index `i`), for bounds `ab` and
`n` nodes (spec sections 4.2 and 4.5). -/
def weightedNodes (rule : Rule) (n : ℕ) (ab : ℚ × ℚ) : List (ℚ × ℚ) :=
  (List.range n).map fun i =>
    (gridNode ab.1 ab.2 n i, weight1D rule n (stepSize ab.1 ab.2 n) i)

/-- Coordinates of a grid point given as a list of per-dimension
(node, weight) pairs. -/
def pointCoords (pw : List (ℚ × ℚ)) : List ℚ := pw.map Prod.fst

/-- Modelled from the spec: the tensor-product weight of a grid point — the
product of its per-dimension 1-D weights (spec section 4.5). -/
def pointWeight (pw : List (ℚ × ℚ)) : ℚ := (pw.map Prod.snd).prod

/-- Modelled from the spec: the weighted tensor-product grid — the Cartesian
product of the per-dimension (node, weight) sequences (spec sections 4.2
and 4.5). -/
def weightedGrid (rule : Rule) (domain : List (ℚ × ℚ)) (n : ℕ) :
    List (List (ℚ × ℚ)) :=
  cartesianProduct (domain.map (weightedNodes rule n))

/-! ### Batch Evaluator (spec section 4.4) -/

/-- Modelled from the spec: a single batched invocation of the integrand on
a list of points, one scalar per row in the same order (spec section 4.4). -/
def evalBatch (f : List ℚ → ℚ) (pts : List (List ℚ)) : List ℚ := pts.map f

/-- Fuel-indexed chunking: split a list into contiguous chunks of size `c`,
in order.  The fuel bounds the recursion; with `fuel ≥ xs.length` and
`c ≥ 1` it is never exhausted. -/
def chunkAux {α : Type} : ℕ → ℕ → List α → List (List α)
  | _, _, [] => []
  | 0, _, xs => [xs]
  | fuel + 1, c, xs => xs.take c :: chunkAux fuel c (xs.drop c)

/-- Modelled from the spec: partition of the point set into ordered
contiguous chunks of size `c` (spec section 4.4). -/
def chunkList {α : Type} (c : ℕ) (xs : List α) : List (List α) :=
  chunkAux xs.length c xs

/-- Modelled from the spec: chunked batch evaluation — invoke the integrand
per chunk and concatenate the per-chunk outputs in original point order
(spec section 4.4). -/
def evalBatchChunked (c : ℕ) (f : List ℚ → ℚ) (pts : List (List ℚ)) :
    List ℚ :=
  ((chunkList c pts).map (evalBatch f)).flatten

/-! ### Weighting & Reduction Engine (spec section 4.5) -/

/-- Modelled from the spec: the grid-rule integral estimate — the integrand
is evaluated in batch on the grid points, each value is multiplied by its
point's tensor-product weight, and the products are summed
(spec section 4.5). -/
def gridEstimate (rule : Rule) (domain : List (ℚ × ℚ)) (n : ℕ)
    (f : List ℚ → ℚ) : ℚ :=
  ((((weightedGrid rule domain n).map pointWeight).zip
      (evalBatch f ((weightedGrid rule domain n).map pointCoords))).map
    fun wv => wv.1 * wv.2).sum

/-- Grid-rule integral estimate computed with chunked batch evaluation
(chunk size `c`) in place of the single batched invocation. -/
def gridEstimateChunked (c : ℕ) (rule : Rule) (domain : List (ℚ × ℚ))
    (n : ℕ) (f : List ℚ → ℚ) : ℚ :=
  ((((weightedGrid rule domain n).map pointWeight).zip
      (evalBatchChunked c f ((weightedGrid rule domain n).map pointCoords))).map
    fun wv => wv.1 * wv.2).sum

/-- Nested (dimension-by-dimension) 1-D quadrature over per-dimension
(node, weight) sequences: contracts the outermost dimension with its 1-D
weights and recurses — the "nested 1-D integration" form of
spec section 4.5. -/
def nestedQuadrature : List (List (ℚ × ℚ)) → (List ℚ → ℚ) → ℚ
  | [], f => f []
  | ws :: rest, f =>
      (ws.map fun xw => xw.2 * nestedQuadrature rest fun p => f (xw.1 :: p)).sum

/-- Modelled from the spec: the domain volume — the product over dimensions
of `(b_i - a_i)` (spec section 4.5). -/
def domainVolume (domain : List (ℚ × ℚ)) : ℚ :=
  (domain.map fun ab => ab.2 - ab.1).prod

/-! ### Sampler (spec section 4.3) -/

/-- Modelled from the spec: a seedable pseudo-random source.  The spec leaves
the generator itself to the array backend; it is embedded as a concrete
64-bit linear-congruential step, a pure function of the current state. -/
def lcgNext (s : ℕ) : ℕ :=
  (6364136223846793005 * s + 1442695040888963407) % 2 ^ 64

/-- Modelled from the spec: draw one coordinate uniformly in `[a, b]` from
the pseudo-random state, returning the coordinate and the advanced state
(spec section 4.3). -/
def drawCoord (ab : ℚ × ℚ) (s : ℕ) : ℚ × ℕ :=
  let s' := lcgNext s
  (ab.1 + ((s' : ℚ) / 2 ^ 64) * (ab.2 - ab.1), s')

/-- Modelled from the spec: draw one `D`-dimensional sample point, each
coordinate independently uniform in its dimension's bounds
(spec section 4.3). -/
def drawPoint (domain : List (ℚ × ℚ)) (s : ℕ) : List ℚ × ℕ :=
  match domain with
  | [] => ([], s)
  | ab :: rest =>
      let xs := drawCoord ab s
      let ps := drawPoint rest xs.2
      (xs.1 :: ps.1, ps.2)

/-- Modelled from the spec: draw `n` independent sample points inside the
hyper-rectangle from the seeded pseudo-random state (spec section 4.3). -/
def drawSamples (domain : List (ℚ × ℚ)) : ℕ → ℕ → List (List ℚ) × ℕ
  | 0, s => ([], s)
  | n + 1, s =>
      let ps := drawPoint domain s
      let rest := drawSamples domain n ps.2
      (ps.1 :: rest.1, rest.2)

/-- Modelled from the spec: the Monte Carlo estimate — domain volume times
the arithmetic mean of the integrand's values at the samples
(spec section 4.5). -/
def monteCarloEstimate (domain : List (ℚ × ℚ)) (N : ℕ) (seed : ℕ)
    (f : List ℚ → ℚ) : ℚ :=
  domainVolume domain *
    ((evalBatch f (drawSamples domain N seed).1).sum / (N : ℚ))

/-! ### Integrator Façade (spec section 4.6) -/

/-- Modelled from the spec: input validation — `InvalidDomain` when the
domain length differs from the requested dimension or some axis has
`lower ≥ upper` (spec sections 4.6 and 7); validation precedes any
point-set construction. -/
def validateDomain (dim : ℕ) (domain : List (ℚ × ℚ)) :
    Option IntegrationError :=
  if domain.length ≠ dim then some .InvalidDomain
  else if domain.any fun ab => ab.2 ≤ ab.1 then some .InvalidDomain
  else none

/-- Modelled from the spec: the `integrate` façade — validate, resolve the
point count, build the grid (or draw samples), evaluate in batch, and
reduce to the scalar estimate; errors propagate unchanged
(spec section 4.6). -/
def integrate (rule : Rule) (f : List ℚ → ℚ) (dim N : ℕ)
    (domain : List (ℚ × ℚ)) (seed : ℕ) : Except IntegrationError ℚ :=
  match validateDomain dim domain with
  | some e => .error e
  | none =>
      match resolvePointCount rule N dim with
      | .error e => .error e
      | .ok nTotal =>
          match rule with
          | .MonteCarlo => .ok (monteCarloEstimate domain nTotal.1 seed f)
          | _ => .ok (gridEstimate rule domain nTotal.1 f)

/-- Modelled from the spec: a Monte Carlo integrator instance, whose only
call-to-call state is the owned pseudo-random state (spec section 3:
"engine holds no state across calls except an optional owned seed"). -/
structure MonteCarloIntegrator where
  rngState : ℕ

/-- Modelled from the spec: a stateful Monte Carlo call — with a supplied
seed the generator is re-seeded for the call, otherwise the instance's
current state is used; the advanced state is stored back on the instance
(spec sections 4.3 and 4.6). -/
def mcIntegrateCall (inst : MonteCarloIntegrator) (f : List ℚ → ℚ)
    (dim N : ℕ) (domain : List (ℚ × ℚ)) (seed : Option ℕ) :
    Except IntegrationError ℚ × MonteCarloIntegrator :=
  let s0 := match seed with
    | some s => s
    | none => inst.rngState
  match validateDomain dim domain with
  | some e => (.error e, inst)
  | none =>
      match resolvePointCount .MonteCarlo N dim with
      | .error e => (.error e, inst)
      | .ok nTotal =>
          (.ok (monteCarloEstimate domain nTotal.1 s0 f),
           ⟨(drawSamples domain nTotal.1 s0).2⟩)

/-- Modelled from the spec: the sample point set drawn by one stateful Monte
Carlo call — from the supplied seed when present, else from the instance's
current state (spec section 4.3). -/
def mcDrawnPoints (inst : MonteCarloIntegrator) (N : ℕ)
    (domain : List (ℚ × ℚ)) (seed : Option ℕ) : List (List ℚ) :=
  (drawSamples domain N (match seed with
    | some s => s
    | none => inst.rngState)).1

/-- Modelled from the spec: the caller's environment around a call — the
caller owns the integration domain and the engine only borrows it
(spec section 3: "Owned by the caller; borrowed by the engine"). -/
structure CallerEnv where
  domain : List (ℚ × ℚ)

/-- Modelled from the spec: one `integrate` call threaded through the
caller's environment: the engine reads the caller's domain to compute the
result and the environment is handed back to the caller
(spec sections 3 and 4.6). -/
def integrateCall (rule : Rule) (f : List ℚ → ℚ) (dim N : ℕ)
    (env : CallerEnv) (seed : ℕ) :
    Except IntegrationError ℚ × CallerEnv :=
  (integrate rule f dim N env.domain seed, env)

/-! ### Helper lemmas: the rounded integer root -/

theorem rootRoundAux_le (N D : ℕ) :
    ∀ fuel start, start ≤ rootRoundAux N D fuel start := by
  intro fuel
  induction fuel with
  | zero => intro start; simp [rootRoundAux]
  | succ fuel ih =>
      intro start
      rw [rootRoundAux]
      split
      · exact le_refl _
      · exact le_trans (Nat.le_succ start) (ih (start + 1))

theorem rootRoundAux_prop (N D : ℕ) :
    ∀ fuel start, (∃ j, j < fuel ∧ rootRoundProp N D (start + j)) →
      rootRoundProp N D (rootRoundAux N D fuel start) := by
  intro fuel
  induction fuel with
  | zero =>
      intro start h
      obtain ⟨j, hj, _⟩ := h
      omega
  | succ fuel ih =>
      intro start h
      rw [rootRoundAux]
      split
      · assumption
      · rename_i hns
        apply ih
        obtain ⟨j, hj, hp⟩ := h
        match j, hp with
        | 0, hp => exact absurd hp hns
        | j + 1, hp => exact ⟨j, by omega, by rw [show start + 1 + j = start + (j + 1) by omega]; exact hp⟩

theorem rootRoundAux_min (N D : ℕ) :
    ∀ fuel start i, start ≤ i → i < rootRoundAux N D fuel start →
      ¬ rootRoundProp N D i := by
  intro fuel
  induction fuel with
  | zero =>
      intro start i hsi hlt
      rw [rootRoundAux] at hlt
      omega
  | succ fuel ih =>
      intro start i hsi hlt
      rw [rootRoundAux] at hlt
      revert hlt
      split
      · intro hlt; omega
      · intro hlt
        rename_i hns
        rcases Nat.eq_or_lt_of_le hsi with h | h
        · rw [← h]; exact hns
        · exact ih (start + 1) i h hlt

theorem rootRoundProp_succ_bound (N D : ℕ) (hD : 1 ≤ D) :
    rootRoundProp N D (N + 1) := by
  unfold rootRoundProp
  calc 2 ^ D * N < 2 ^ D * (N + 1) := by
        have h2 : 0 < 2 ^ D := Nat.pos_pow_of_pos D (by omega)
        exact mul_lt_mul_of_pos_left (by omega) h2
    _ ≤ 2 ^ D * (N + 1) ^ D := by
        have : N + 1 ≤ (N + 1) ^ D := Nat.le_self_pow (by omega) _
        exact Nat.mul_le_mul_left _ this
    _ = (2 * (N + 1)) ^ D := (Nat.mul_pow 2 (N + 1) D).symm
    _ < (2 * (N + 1) + 1) ^ D := Nat.pow_lt_pow_left (by omega) (by omega)

theorem rootRound_prop (N D : ℕ) (hD : 1 ≤ D) :
    rootRoundProp N D (rootRound N D) := by
  apply rootRoundAux_prop
  exact ⟨N + 1, by omega, by simpa using rootRoundProp_succ_bound N D hD⟩

theorem rootRound_min (N D : ℕ) :
    ∀ i, i < rootRound N D → ¬ rootRoundProp N D i := by
  intro i hi
  exact rootRoundAux_min N D (N + 2) 0 i (Nat.zero_le i) hi

theorem rootRound_eq_round (N D : ℕ) (hD : 1 ≤ D) :
    (rootRound N D : ℤ) = round ((N : ℝ) ^ ((D : ℝ)⁻¹)) := by
  have hDne : D ≠ 0 := by omega
  set r := rootRound N D with hr
  set x : ℝ := (N : ℝ) ^ ((D : ℝ)⁻¹) with hxdef
  have hx0 : 0 ≤ x := Real.rpow_nonneg (Nat.cast_nonneg N) _
  have hxD : x ^ D = (N : ℝ) :=
    Real.rpow_inv_natCast_pow (Nat.cast_nonneg N) hDne
  have hup : x < (r : ℝ) + 1 / 2 := by
    by_contra hcon
    push_neg at hcon
    have hle : ((r : ℝ) + 1 / 2) ^ D ≤ x ^ D :=
      pow_le_pow_left₀ (by positivity) hcon D
    have hnat : (2 ^ D * N : ℕ) < ((2 * r + 1) ^ D : ℕ) := rootRound_prop N D hD
    have hcast : (2 : ℝ) ^ D * (N : ℝ) < (2 * (r : ℝ) + 1) ^ D := by
      exact_mod_cast hnat
    rw [← hxD] at hcast
    have hexp : (2 * (r : ℝ) + 1) ^ D = 2 ^ D * ((r : ℝ) + 1 / 2) ^ D := by
      rw [← mul_pow]; ring_nf
    rw [hexp] at hcast
    have h2pos : (0 : ℝ) < 2 ^ D := by positivity
    nlinarith [mul_le_mul_of_nonneg_left hle (le_of_lt h2pos)]
  have hlow : (r : ℝ) ≤ x + 1 / 2 := by
    rcases Nat.eq_zero_or_pos r with hz | hpos
    · rw [hz]; push_cast; linarith
    · have hnp : ¬ rootRoundProp N D (r - 1) := rootRound_min N D (r - 1) (by omega)
      unfold rootRoundProp at hnp
      push_neg at hnp
      have hr1 : 2 * (r - 1) + 1 = 2 * r - 1 := by omega
      have hnat : (2 * r - 1) ^ D ≤ 2 ^ D * N := by rw [← hr1]; exact hnp
      have hcast : (2 * (r : ℝ) - 1) ^ D ≤ (2 : ℝ) ^ D * (N : ℝ) := by
        have h1 : ((2 * r - 1 : ℕ) : ℝ) = 2 * (r : ℝ) - 1 := by
          rw [Nat.cast_sub (by omega : 1 ≤ 2 * r)]; push_cast; ring
        rw [← h1]
        exact_mod_cast hnat
      rw [← hxD] at hcast
      have hexp : (2 * (r : ℝ) - 1) ^ D = 2 ^ D * ((r : ℝ) - 1 / 2) ^ D := by
        rw [← mul_pow]; ring_nf
      rw [hexp] at hcast
      have h2pos : (0 : ℝ) < 2 ^ D := by positivity
      have hle2 : ((r : ℝ) - 1 / 2) ^ D ≤ x ^ D := by nlinarith
      have hrx : (r : ℝ) - 1 / 2 ≤ x :=
        le_of_pow_le_pow_left₀ hDne hx0 hle2
      linarith
  rw [round_eq]
  symm
  rw [Int.floor_eq_iff]
  constructor
  · push_cast; linarith
  · push_cast; linarith

theorem adjustCount_simpson_odd (m : ℕ) : Odd (adjustCount .Simpson m) := by
  rw [Nat.odd_iff]
  simp only [adjustCount]
  split <;> omega

theorem resolvePointCount_trapezoid (N D : ℕ) :
    resolvePointCount .Trapezoid N D =
      if rootRound N D < 2 then .error .InvalidPointCount
      else .ok (rootRound N D, rootRound N D ^ D) := by
  simp [resolvePointCount, adjustCount, minPoints]

theorem resolvePointCount_simpson (N D : ℕ) :
    resolvePointCount .Simpson N D =
      if adjustCount .Simpson (rootRound N D) < 3 then .error .InvalidPointCount
      else .ok (adjustCount .Simpson (rootRound N D),
                adjustCount .Simpson (rootRound N D) ^ D) := by
  simp [resolvePointCount, minPoints]

/-- Claim C1: for every requested point budget `N` and dimension `D ≥ 1`, the
Trapezoid/Simpson point-count resolution sets the per-dimension count to
`round(N^(1/D))`, increments it by 1 when the rule is Simpson and the count
is even, raises `InvalidPointCount` when the count is below the rule's
minimum (2 for Trapezoid, 3 for Simpson), and reports the effective total
as exactly `n^D`; the Simpson per-dimension count is always odd and `≥ 3`. -/
theorem claim_C1 (N D : ℕ) (hD : 1 ≤ D) :
    ((rootRound N D : ℤ) = round ((N : ℝ) ^ ((D : ℝ)⁻¹))) ∧
    (resolvePointCount .Trapezoid N D = .error .InvalidPointCount ↔
      rootRound N D < 2) ∧
    (resolvePointCount .Simpson N D = .error .InvalidPointCount ↔
      adjustCount .Simpson (rootRound N D) < 3) ∧
    (rootRound N D % 2 = 0 →
      adjustCount .Simpson (rootRound N D) = rootRound N D + 1) ∧
    (∀ n total, resolvePointCount .Trapezoid N D = .ok (n, total) →
      n = rootRound N D ∧ 2 ≤ n ∧ total = n ^ D) ∧
    (∀ n total, resolvePointCount .Simpson N D = .ok (n, total) →
      n = adjustCount .Simpson (rootRound N D) ∧ Odd n ∧ 3 ≤ n ∧
      total = n ^ D) := by
  refine ⟨rootRound_eq_round N D hD, ?_, ?_, ?_, ?_, ?_⟩
  · rw [resolvePointCount_trapezoid]
    split
    · rename_i h; exact ⟨fun _ => h, fun _ => rfl⟩
    · rename_i h
      constructor
      · intro hc; cases hc
      · intro hc; exact absurd hc h
  · rw [resolvePointCount_simpson]
    split
    · rename_i h; exact ⟨fun _ => h, fun _ => rfl⟩
    · rename_i h
      constructor
      · intro hc; cases hc
      · intro hc; exact absurd hc h
  · intro he
    simp only [adjustCount]
    rw [if_pos he]
  · intro n total hok
    rw [resolvePointCount_trapezoid] at hok
    revert hok
    split
    · intro hok; cases hok
    · rename_i h
      intro hok
      rw [Except.ok.injEq, Prod.mk.injEq] at hok
      exact ⟨hok.1.symm, by omega, by rw [← hok.1]; exact hok.2.symm⟩
  · intro n total hok
    rw [resolvePointCount_simpson] at hok
    revert hok
    split
    · intro hok; cases hok
    · rename_i h
      intro hok
      rw [Except.ok.injEq, Prod.mk.injEq] at hok
      refine ⟨hok.1.symm, ?_, by omega, by rw [← hok.1]; exact hok.2.symm⟩
      rw [← hok.1]
      exact adjustCount_simpson_odd (rootRound N D)

/-- Witness for claim C1 at the concrete input `N = 10`, `D = 2` (the real
square root of 10 rounds to 3, so both grid rules resolve to 3 points per
dimension and 9 effective points). -/
theorem claim_C1_witness :
    1 ≤ 2 ∧
    (((rootRound 10 2 : ℤ) = round ((10 : ℝ) ^ ((2 : ℝ)⁻¹))) ∧
     (resolvePointCount .Trapezoid 10 2 = .error .InvalidPointCount ↔
       rootRound 10 2 < 2) ∧
     (resolvePointCount .Simpson 10 2 = .error .InvalidPointCount ↔
       adjustCount .Simpson (rootRound 10 2) < 3) ∧
     (rootRound 10 2 % 2 = 0 →
       adjustCount .Simpson (rootRound 10 2) = rootRound 10 2 + 1) ∧
     (∀ n total, resolvePointCount .Trapezoid 10 2 = .ok (n, total) →
       n = rootRound 10 2 ∧ 2 ≤ n ∧ total = n ^ 2) ∧
     (∀ n total, resolvePointCount .Simpson 10 2 = .ok (n, total) →
       n = adjustCount .Simpson (rootRound 10 2) ∧ Odd n ∧ 3 ≤ n ∧
       total = n ^ 2)) :=
  ⟨by decide, claim_C1 10 2 (by decide)⟩

theorem linspace_getElem? (a b : ℚ) (n i : ℕ) (h : i < n) :
    (linspace a b n)[i]? = some (gridNode a b n i) := by
  simp [linspace, List.getElem?_map, List.getElem?_range h]

theorem gridNode_zero (a b : ℚ) (n : ℕ) : gridNode a b n 0 = a := by
  simp [gridNode]

theorem natCast_sub_one_ne_zero (n : ℕ) (hn : 2 ≤ n) : ((n : ℚ) - 1) ≠ 0 := by
  have h2 : (2 : ℚ) ≤ (n : ℚ) := by exact_mod_cast hn
  intro hc
  linarith

theorem gridNode_last (a b : ℚ) (n : ℕ) (hn : 2 ≤ n) :
    gridNode a b n (n - 1) = b := by
  have hcast : ((n - 1 : ℕ) : ℚ) = (n : ℚ) - 1 := by
    rw [Nat.cast_sub (by omega : 1 ≤ n)]; simp
  have hne := natCast_sub_one_ne_zero n hn
  rw [gridNode, stepSize, hcast]
  field_simp

theorem cartesianProduct_length {α : Type} :
    ∀ ls : List (List α),
      (cartesianProduct ls).length = (ls.map List.length).prod := by
  intro ls
  induction ls with
  | nil => simp [cartesianProduct]
  | cons xs rest ih =>
      simp only [cartesianProduct, List.length_flatten, List.map_map,
        List.map_cons, List.prod_cons]
      have hcomp :
          (List.length ∘ fun x => (cartesianProduct rest).map fun p => x :: p)
            = fun _ : α => (cartesianProduct rest).length := by
        funext x
        simp
      rw [hcomp]
      have hconst : (xs.map fun _ : α => (cartesianProduct rest).length)
          = List.replicate xs.length (cartesianProduct rest).length := by
        simp [List.map_const']
      rw [hconst, List.sum_replicate, smul_eq_mul, ih]

theorem map_const_prod {α : Type} (l : List α) (c : ℕ) :
    (l.map fun _ => c).prod = c ^ l.length := by
  induction l with
  | nil => simp
  | cons x rest ih => simp [ih, pow_succ, mul_comm]

theorem gridPoints_length (domain : List (ℚ × ℚ)) (n : ℕ) :
    (gridPoints domain n).length = n ^ domain.length := by
  rw [gridPoints, cartesianProduct_length, List.map_map]
  have hcomp : (List.length ∘ fun ab : ℚ × ℚ => linspace ab.1 ab.2 n)
      = fun _ : ℚ × ℚ => n := by
    funext ab
    simp [linspace]
  rw [hcomp, map_const_prod]

/-- Claim C2: for every dimension with bounds `[a, b]` and per-dimension
count `n ≥ 2`, the grid builder produces exactly `n` equally spaced nodes,
the first equal to `a`, the last equal to `b`, with constant consecutive
spacing `(b - a)/(n - 1)`; the full evaluation point set is the Cartesian
product of the per-dimension node sequences and has exactly `n^D` points. -/
theorem claim_C2 (a b : ℚ) (n : ℕ) (hn : 2 ≤ n) (domain : List (ℚ × ℚ)) :
    (linspace a b n).length = n ∧
    (linspace a b n)[0]? = some a ∧
    (linspace a b n)[n - 1]? = some b ∧
    (∀ i, i < n →
      (linspace a b n)[i]? = some (a + (i : ℚ) * ((b - a) / ((n : ℚ) - 1)))) ∧
    (∀ i, i + 1 < n →
      gridNode a b n (i + 1) - gridNode a b n i = (b - a) / ((n : ℚ) - 1)) ∧
    gridPoints domain n = cartesianProduct (domain.map fun ab => linspace ab.1 ab.2 n) ∧
    (gridPoints domain n).length = n ^ domain.length := by
  refine ⟨?_, ?_, ?_, ?_, ?_, rfl, gridPoints_length domain n⟩
  · simp [linspace]
  · rw [linspace_getElem? a b n 0 (by omega), gridNode_zero]
  · rw [linspace_getElem? a b n (n - 1) (by omega), gridNode_last a b n hn]
  · intro i hi
    rw [linspace_getElem? a b n i hi, gridNode, stepSize]
  · intro i hi
    simp only [gridNode, stepSize]
    push_cast
    ring

/-- Witness for claim C2 at the concrete input `a = 0`, `b = 2`, `n = 3`,
2-D domain `[(0,1), (0,2)]`. -/
theorem claim_C2_witness :
    2 ≤ 3 ∧
    ((linspace 0 2 3).length = 3 ∧
     (linspace 0 2 3)[0]? = some 0 ∧
     (linspace 0 2 3)[3 - 1]? = some 2 ∧
     (∀ i : ℕ, i < 3 →
       (linspace 0 2 3)[i]? =
         some (0 + (i : ℚ) * ((2 - 0) / (((3 : ℕ) : ℚ) - 1)))) ∧
     (∀ i : ℕ, i + 1 < 3 →
       gridNode 0 2 3 (i + 1) - gridNode 0 2 3 i =
         (2 - 0) / (((3 : ℕ) : ℚ) - 1)) ∧
     gridPoints [(0, 1), (0, 2)] 3 =
       cartesianProduct ([(0, 1), (0, 2)].map fun ab => linspace ab.1 ab.2 3) ∧
     (gridPoints [(0, 1), (0, 2)] 3).length = 3 ^ ([(0, 1), (0, 2)] : List (ℚ × ℚ)).length) :=
  ⟨by decide, claim_C2 0 2 3 (by decide) [(0, 1), (0, 2)]⟩

theorem gridEstimate_eq_weightedSum (rule : Rule) (domain : List (ℚ × ℚ))
    (n : ℕ) (f : List ℚ → ℚ) :
    gridEstimate rule domain n f =
      ((weightedGrid rule domain n).map
        fun pw => pointWeight pw * f (pointCoords pw)).sum := by
  rw [gridEstimate, evalBatch, List.map_map, List.zip_map', List.map_map]
  rfl

theorem flatSum_eq_nested :
    ∀ (dims : List (List (ℚ × ℚ))) (f : List ℚ → ℚ),
      ((cartesianProduct dims).map
        fun pw => pointWeight pw * f (pointCoords pw)).sum
        = nestedQuadrature dims f := by
  intro dims
  induction dims with
  | nil =>
      intro f
      simp [cartesianProduct, nestedQuadrature, pointWeight, pointCoords]
  | cons ws rest ih =>
      intro f
      have inner : ∀ xw : ℚ × ℚ,
          (((cartesianProduct rest).map fun p => xw :: p).map
            fun pw => pointWeight pw * f (pointCoords pw)).sum
            = xw.2 * nestedQuadrature rest fun p => f (xw.1 :: p) := by
        intro xw
        rw [List.map_map]
        have hfun : ((fun pw => pointWeight pw * f (pointCoords pw)) ∘
              fun p => xw :: p)
            = fun pw => xw.2 * (pointWeight pw *
                (fun p => f (xw.1 :: p)) (pointCoords pw)) := by
          funext pw
          simp only [Function.comp, pointWeight, pointCoords, List.map_cons,
            List.prod_cons]
          ring
        rw [hfun, List.sum_map_mul_left]
        exact congrArg (fun z => xw.2 * z) (ih fun p => f (xw.1 :: p))
      simp only [cartesianProduct, nestedQuadrature]
      rw [List.map_flatten, List.sum_flatten, List.map_map, List.map_map]
      congr 1
      exact List.map_congr_left fun xw _ => by simpa using inner xw

theorem gridEstimate_eq_nested (rule : Rule) (domain : List (ℚ × ℚ))
    (n : ℕ) (f : List ℚ → ℚ) :
    gridEstimate rule domain n f =
      nestedQuadrature (domain.map (weightedNodes rule n)) f := by
  rw [gridEstimate_eq_weightedSum, weightedGrid, flatSum_eq_nested]

theorem integrate_grid_ok (rule : Rule) (hrule : rule ≠ .MonteCarlo)
    (f : List ℚ → ℚ) (dim N : ℕ) (domain : List (ℚ × ℚ)) (seed : ℕ)
    (np total : ℕ) (hv : validateDomain dim domain = none)
    (hr : resolvePointCount rule N dim = .ok (np, total)) :
    integrate rule f dim N domain seed = .ok (gridEstimate rule domain np f) := by
  rw [integrate, hv, hr]
  match rule, hrule with
  | .Trapezoid, _ => rfl
  | .Simpson, _ => rfl

/-- Claim C3: for the Trapezoid rule on `n` equally spaced 1-D nodes with
step `h`, the composite weight is `h/2` at the two boundary nodes and `h`
at every interior node; in `D` dimensions each grid point's weight is the
product of its per-dimension 1-D weights, and the returned integral
estimate equals the sum over all grid points of weight times integrand
value (equivalently, the nested composition of weighted 1-D quadratures). -/
theorem claim_C3 (n : ℕ) (h : ℚ) (domain : List (ℚ × ℚ)) (f : List ℚ → ℚ)
    (dim N seed : ℕ) :
    (trapezoidWeight n h 0 = h / 2) ∧
    (trapezoidWeight n h (n - 1) = h / 2) ∧
    (∀ i, 0 < i → i < n - 1 → trapezoidWeight n h i = h) ∧
    (gridEstimate .Trapezoid domain n f =
      ((weightedGrid .Trapezoid domain n).map
        fun pw => pointWeight pw * f (pointCoords pw)).sum) ∧
    (gridEstimate .Trapezoid domain n f =
      nestedQuadrature (domain.map (weightedNodes .Trapezoid n)) f) ∧
    (∀ np total, validateDomain dim domain = none →
      resolvePointCount .Trapezoid N dim = .ok (np, total) →
      integrate .Trapezoid f dim N domain seed =
        .ok (gridEstimate .Trapezoid domain np f)) := by
  refine ⟨?_, ?_, ?_, gridEstimate_eq_weightedSum _ _ _ _,
    gridEstimate_eq_nested _ _ _ _, ?_⟩
  · simp [trapezoidWeight]
  · simp [trapezoidWeight]
  · intro i h1 h2
    simp only [trapezoidWeight]
    rw [if_neg (by omega)]
  · intro np total hv hr
    exact integrate_grid_ok .Trapezoid (by intro hc; cases hc) f dim N domain
      seed np total hv hr

/-- Witness for claim C3 at `n = 3`, `h = 1`, domain `[(0, 2)]`, constant
integrand, `dim = 1`, `N = 3`. -/
theorem claim_C3_witness :
    trapezoidWeight 3 1 0 = 1 / 2 ∧
    trapezoidWeight 3 1 (3 - 1) = 1 / 2 ∧
    trapezoidWeight 3 1 1 = 1 ∧
    integrate .Trapezoid (fun _ => 1) 1 3 [(0, 2)] 0 =
      .ok (gridEstimate .Trapezoid [(0, 2)] 3 (fun _ => 1)) := by
  have hc := claim_C3 3 1 [(0, 2)] (fun _ => 1) 1 3 0
  exact ⟨hc.1, hc.2.1, hc.2.2.1 1 (by decide) (by decide),
    hc.2.2.2.2.2 3 3 (by rfl) (by rfl)⟩

/-- Claim C4: for the Simpson rule with odd per-dimension count `n ≥ 3` and
step `h`, the 1-D composite weights are `h/3` at the two boundary nodes,
`4h/3` at odd-indexed interior nodes and `2h/3` at even-indexed interior
nodes; the Simpson weight sequence is used only for odd `n` (the resolver
only ever delivers odd counts), and the `D`-dimensional estimate is the
tensor-product-weighted sum of the integrand values. -/
theorem claim_C4 (n : ℕ) (h : ℚ) (domain : List (ℚ × ℚ)) (f : List ℚ → ℚ)
    (dim N seed : ℕ) :
    (simpsonWeight n h 0 = h / 3) ∧
    (simpsonWeight n h (n - 1) = h / 3) ∧
    (∀ i, 0 < i → i < n - 1 → i % 2 = 1 → simpsonWeight n h i = 4 * h / 3) ∧
    (∀ i, 0 < i → i < n - 1 → i % 2 = 0 → simpsonWeight n h i = 2 * h / 3) ∧
    (∀ np total, resolvePointCount .Simpson N dim = .ok (np, total) → Odd np) ∧
    (gridEstimate .Simpson domain n f =
      ((weightedGrid .Simpson domain n).map
        fun pw => pointWeight pw * f (pointCoords pw)).sum) ∧
    (gridEstimate .Simpson domain n f =
      nestedQuadrature (domain.map (weightedNodes .Simpson n)) f) ∧
    (∀ np total, validateDomain dim domain = none →
      resolvePointCount .Simpson N dim = .ok (np, total) →
      integrate .Simpson f dim N domain seed =
        .ok (gridEstimate .Simpson domain np f)) := by
  refine ⟨?_, ?_, ?_, ?_, ?_, gridEstimate_eq_weightedSum _ _ _ _,
    gridEstimate_eq_nested _ _ _ _, ?_⟩
  · simp [simpsonWeight]
  · simp [simpsonWeight]
  · intro i h1 h2 h3
    simp only [simpsonWeight]
    rw [if_neg (by omega), if_pos h3]
  · intro i h1 h2 h3
    simp only [simpsonWeight]
    rw [if_neg (by omega), if_neg (by omega)]
  · intro np total hok
    rw [resolvePointCount_simpson] at hok
    revert hok
    split
    · intro hok; cases hok
    · intro hok
      rw [Except.ok.injEq, Prod.mk.injEq] at hok
      rw [← hok.1]
      exact adjustCount_simpson_odd (rootRound N dim)
  · intro np total hv hr
    exact integrate_grid_ok .Simpson (by intro hc; cases hc) f dim N domain
      seed np total hv hr

/-- Witness for claim C4 at `n = 5`, `h = 1`, domain `[(0, 2)]`, constant
integrand, `dim = 1`, `N = 5`. -/
theorem claim_C4_witness :
    simpsonWeight 5 1 0 = 1 / 3 ∧
    simpsonWeight 5 1 (5 - 1) = 1 / 3 ∧
    simpsonWeight 5 1 1 = 4 * 1 / 3 ∧
    simpsonWeight 5 1 2 = 2 * 1 / 3 ∧
    integrate .Simpson (fun _ => 1) 1 5 [(0, 2)] 0 =
      .ok (gridEstimate .Simpson [(0, 2)] 5 (fun _ => 1)) := by
  have hc := claim_C4 5 1 [(0, 2)] (fun _ => 1) 1 5 0
  exact ⟨hc.1, hc.2.1, hc.2.2.1 1 (by decide) (by decide) (by decide),
    hc.2.2.2.1 2 (by decide) (by decide) (by decide),
    hc.2.2.2.2.2.2.2 5 5 (by rfl) (by rfl)⟩

theorem sum_map_range (f : ℕ → ℚ) :
    ∀ n, ((List.range n).map f).sum = ∑ i ∈ Finset.range n, f i := by
  intro n
  induction n with
  | zero => simp
  | succ k ih =>
      rw [List.range_succ, List.map_append, List.sum_append,
        Finset.sum_range_succ, ih]
      simp

theorem trapezoidWeight_sum (h : ℚ) :
    ∀ m : ℕ, (∑ i ∈ Finset.range (m + 2), trapezoidWeight (m + 2) h i)
      = ((m + 1 : ℕ) : ℚ) * h := by
  intro m
  induction m with
  | zero =>
      rw [Finset.sum_range_succ, Finset.sum_range_succ, Finset.sum_range_zero]
      simp [trapezoidWeight]
  | succ k ih =>
      show (∑ i ∈ Finset.range (k + 3), trapezoidWeight (k + 3) h i)
        = ((k + 2 : ℕ) : ℚ) * h
      have hcongr : (∑ i ∈ Finset.range (k + 1), trapezoidWeight (k + 3) h i)
          = ∑ i ∈ Finset.range (k + 1), trapezoidWeight (k + 2) h i := by
        apply Finset.sum_congr rfl
        intro i hi
        rw [Finset.mem_range] at hi
        by_cases hi0 : i = 0
        · simp [trapezoidWeight, hi0]
        · simp only [trapezoidWeight]
          rw [if_neg (by omega), if_neg (by omega)]
      have w1 : trapezoidWeight (k + 3) h (k + 1) = h := by
        simp only [trapezoidWeight]
        rw [if_neg (by omega)]
      have w2 : trapezoidWeight (k + 3) h (k + 2) = h / 2 := by
        simp only [trapezoidWeight]
        rw [if_pos (by omega)]
      have w3 : trapezoidWeight (k + 2) h (k + 1) = h / 2 := by
        simp only [trapezoidWeight]
        rw [if_pos (by omega)]
      rw [Finset.sum_range_succ, Finset.sum_range_succ, hcongr, w1, w2]
      rw [Finset.sum_range_succ, w3] at ih
      push_cast at ih ⊢
      linarith

theorem simpsonWeight_sum (h : ℚ) :
    ∀ m : ℕ, (∑ i ∈ Finset.range (2 * m + 3), simpsonWeight (2 * m + 3) h i)
      = ((2 * m + 2 : ℕ) : ℚ) * h := by
  intro m
  induction m with
  | zero =>
      rw [Finset.sum_range_succ, Finset.sum_range_succ, Finset.sum_range_succ,
        Finset.sum_range_zero]
      simp [simpsonWeight]
      ring
  | succ k ih =>
      show (∑ i ∈ Finset.range (2 * k + 5), simpsonWeight (2 * k + 5) h i)
        = ((2 * k + 4 : ℕ) : ℚ) * h
      have hcongr : (∑ i ∈ Finset.range (2 * k + 2), simpsonWeight (2 * k + 5) h i)
          = ∑ i ∈ Finset.range (2 * k + 2), simpsonWeight (2 * k + 3) h i := by
        apply Finset.sum_congr rfl
        intro i hi
        rw [Finset.mem_range] at hi
        by_cases hi0 : i = 0
        · simp [simpsonWeight, hi0]
        · simp only [simpsonWeight]
          rw [if_neg (show ¬(i = 0 ∨ i = 2 * k + 5 - 1) by omega),
            if_neg (show ¬(i = 0 ∨ i = 2 * k + 3 - 1) by omega)]
      have w1 : simpsonWeight (2 * k + 5) h (2 * k + 2) = 2 * h / 3 := by
        simp only [simpsonWeight]
        rw [if_neg (by omega), if_neg (by omega)]
      have w2 : simpsonWeight (2 * k + 5) h (2 * k + 3) = 4 * h / 3 := by
        simp only [simpsonWeight]
        rw [if_neg (by omega), if_pos (by omega)]
      have w3 : simpsonWeight (2 * k + 5) h (2 * k + 4) = h / 3 := by
        simp only [simpsonWeight]
        rw [if_pos (by omega)]
      have w4 : simpsonWeight (2 * k + 3) h (2 * k + 2) = h / 3 := by
        simp only [simpsonWeight]
        rw [if_pos (by omega)]
      rw [Finset.sum_range_succ, Finset.sum_range_succ, Finset.sum_range_succ,
        hcongr, w1, w2, w3]
      rw [Finset.sum_range_succ, w4] at ih
      push_cast at ih ⊢
      linarith

theorem weightedNodes_snd (rule : Rule) (n : ℕ) (ab : ℚ × ℚ) :
    (weightedNodes rule n ab).map Prod.snd
      = (List.range n).map (weight1D rule n (stepSize ab.1 ab.2 n)) := by
  simp [weightedNodes, List.map_map]

theorem trapezoid_weights_sum (a b : ℚ) (n : ℕ) (hn : 2 ≤ n) :
    ((weightedNodes .Trapezoid n (a, b)).map Prod.snd).sum = b - a := by
  obtain ⟨m, rfl⟩ : ∃ m, n = m + 2 := ⟨n - 2, by omega⟩
  rw [weightedNodes_snd, sum_map_range]
  have hw : weight1D .Trapezoid = trapezoidWeight := rfl
  rw [hw, trapezoidWeight_sum]
  rw [stepSize]
  have hne : ((m : ℚ) + 2) - 1 ≠ 0 := by
    have : (0 : ℚ) ≤ (m : ℚ) := Nat.cast_nonneg m
    intro hc
    linarith
  push_cast at hne ⊢
  field_simp
  ring

theorem simpson_weights_sum (a b : ℚ) (n : ℕ) (hn : 3 ≤ n) (hodd : n % 2 = 1) :
    ((weightedNodes .Simpson n (a, b)).map Prod.snd).sum = b - a := by
  obtain ⟨m, rfl⟩ : ∃ m, n = 2 * m + 3 := ⟨(n - 3) / 2, by omega⟩
  rw [weightedNodes_snd, sum_map_range]
  have hw : weight1D .Simpson = simpsonWeight := rfl
  rw [hw, simpsonWeight_sum]
  rw [stepSize]
  have hne : ((2 * m + 3 : ℕ) : ℚ) - 1 ≠ 0 := by
    have : (0 : ℚ) ≤ (m : ℚ) := Nat.cast_nonneg m
    push_cast
    intro hc
    linarith
  push_cast at hne ⊢
  field_simp
  ring

theorem nestedQuadrature_const_one :
    ∀ (dims : List (List (ℚ × ℚ))) (g : List ℚ → ℚ), (∀ p, g p = 1) →
      nestedQuadrature dims g
        = (dims.map fun ws => (ws.map Prod.snd).sum).prod := by
  intro dims
  induction dims with
  | nil =>
      intro g hg
      simp [nestedQuadrature, hg []]
  | cons ws rest ih =>
      intro g hg
      have hfun : (fun xw : ℚ × ℚ =>
            xw.2 * nestedQuadrature rest fun p => g (xw.1 :: p))
          = fun xw : ℚ × ℚ =>
            Prod.snd xw * (rest.map fun l => (l.map Prod.snd).sum).prod := by
        funext xw
        rw [ih (fun p => g (xw.1 :: p)) (fun p => hg (xw.1 :: p))]
      show (ws.map fun xw =>
          xw.2 * nestedQuadrature rest fun p => g (xw.1 :: p)).sum
        = ((ws :: rest).map fun l => (l.map Prod.snd).sum).prod
      rw [hfun, List.sum_map_mul_right, List.map_cons, List.prod_cons]

/-- Claim C5: for every interval `[a, b]` and every admissible per-dimension
count `n`, the composite Trapezoid weights sum to exactly `b - a`, and the
composite Simpson weights (odd `n`) also sum to exactly `b - a`;
equivalently, integrating the constant function `f(x) = 1` with either grid
rule returns exactly the domain volume. -/
theorem claim_C5 (a b : ℚ) (n : ℕ) (domain : List (ℚ × ℚ)) :
    (2 ≤ n →
      ((weightedNodes .Trapezoid n (a, b)).map Prod.snd).sum = b - a) ∧
    (3 ≤ n → n % 2 = 1 →
      ((weightedNodes .Simpson n (a, b)).map Prod.snd).sum = b - a) ∧
    (2 ≤ n →
      gridEstimate .Trapezoid domain n (fun _ => 1) = domainVolume domain) ∧
    (3 ≤ n → n % 2 = 1 →
      gridEstimate .Simpson domain n (fun _ => 1) = domainVolume domain) := by
  refine ⟨fun hn => trapezoid_weights_sum a b n hn,
    fun hn hodd => simpson_weights_sum a b n hn hodd, ?_, ?_⟩
  · intro hn
    rw [gridEstimate_eq_nested,
      nestedQuadrature_const_one _ _ (fun _ => rfl), List.map_map,
      domainVolume]
    refine congrArg List.prod (List.map_congr_left fun ab _ => ?_)
    show ((weightedNodes .Trapezoid n ab).map Prod.snd).sum = ab.2 - ab.1
    exact trapezoid_weights_sum ab.1 ab.2 n hn
  · intro hn hodd
    rw [gridEstimate_eq_nested,
      nestedQuadrature_const_one _ _ (fun _ => rfl), List.map_map,
      domainVolume]
    refine congrArg List.prod (List.map_congr_left fun ab _ => ?_)
    show ((weightedNodes .Simpson n ab).map Prod.snd).sum = ab.2 - ab.1
    exact simpson_weights_sum ab.1 ab.2 n hn hodd

/-- Witness for claim C5 at `a = 0`, `b = 2`, `n = 3`,
domain `[(0, 1), (0, 2)]`. -/
theorem claim_C5_witness :
    ((weightedNodes .Trapezoid 3 (0, 2)).map Prod.snd).sum = 2 - 0 ∧
    ((weightedNodes .Simpson 3 (0, 2)).map Prod.snd).sum = 2 - 0 ∧
    gridEstimate .Trapezoid [(0, 1), (0, 2)] 3 (fun _ => 1) =
      domainVolume [(0, 1), (0, 2)] ∧
    gridEstimate .Simpson [(0, 1), (0, 2)] 3 (fun _ => 1) =
      domainVolume [(0, 1), (0, 2)] := by
  have hc := claim_C5 0 2 3 [(0, 1), (0, 2)]
  exact ⟨hc.1 (by decide), hc.2.1 (by decide) (by decide),
    hc.2.2.1 (by decide), hc.2.2.2 (by decide) (by decide)⟩

theorem drawSamples_length (domain : List (ℚ × ℚ)) :
    ∀ (n s : ℕ), (drawSamples domain n s).1.length = n := by
  intro n
  induction n with
  | zero => intro s; rfl
  | succ k ih =>
      intro s
      show ((drawPoint domain s).1 ::
        (drawSamples domain k (drawPoint domain s).2).1).length = k + 1
      rw [List.length_cons, ih]

theorem resolvePointCount_montecarlo (N D : ℕ) :
    resolvePointCount .MonteCarlo N D =
      if N < 1 then .error .InvalidPointCount else .ok (N, N) := rfl

/-- Claim C6: for every Monte Carlo integration with requested budget
`N ≥ 1`, exactly `N` sample points are drawn (the effective total equals
the requested `N`, with no per-dimension rounding) and the returned
estimate equals the domain volume times the arithmetic mean of the
integrand's values at the `N` samples; for `N < 1` the call fails with
`InvalidPointCount`. -/
theorem claim_C6 (f : List ℚ → ℚ) (dim N : ℕ) (domain : List (ℚ × ℚ))
    (seed : ℕ) :
    ((drawSamples domain N seed).1.length = N) ∧
    (∀ n total, resolvePointCount .MonteCarlo N dim = .ok (n, total) →
      n = N ∧ total = N) ∧
    (N = 0 → resolvePointCount .MonteCarlo N dim = .error .InvalidPointCount) ∧
    (1 ≤ N → validateDomain dim domain = none →
      integrate .MonteCarlo f dim N domain seed =
        .ok (domainVolume domain *
          ((evalBatch f (drawSamples domain N seed).1).sum / (N : ℚ)))) ∧
    (N = 0 → validateDomain dim domain = none →
      integrate .MonteCarlo f dim N domain seed =
        .error .InvalidPointCount) := by
  refine ⟨drawSamples_length domain N seed, ?_, ?_, ?_, ?_⟩
  · intro n total hok
    rw [resolvePointCount_montecarlo] at hok
    revert hok
    split
    · intro hok; cases hok
    · intro hok
      rw [Except.ok.injEq, Prod.mk.injEq] at hok
      exact ⟨hok.1.symm, hok.2.symm⟩
  · intro hN
    rw [resolvePointCount_montecarlo, if_pos (by omega)]
  · intro hN hv
    have hr : resolvePointCount .MonteCarlo N dim = .ok (N, N) := by
      rw [resolvePointCount_montecarlo, if_neg (by omega)]
    simp [integrate, hv, hr, monteCarloEstimate]
  · intro hN hv
    have hr : resolvePointCount .MonteCarlo N dim =
        .error .InvalidPointCount := by
      rw [resolvePointCount_montecarlo, if_pos (by omega)]
    simp [integrate, hv, hr]

/-- Witness for claim C6 at `N = 3`, `dim = 2`, domain `[(0, 1), (0, 2)]`,
constant integrand, seed 42. -/
theorem claim_C6_witness :
    ((drawSamples [(0, 1), (0, 2)] 3 42).1.length = 3) ∧
    (3 = 3 ∧ 3 = 3) ∧
    integrate .MonteCarlo (fun _ => 1) 2 3 [(0, 1), (0, 2)] 42 =
      .ok (domainVolume [(0, 1), (0, 2)] *
        ((evalBatch (fun _ => 1)
          (drawSamples [(0, 1), (0, 2)] 3 42).1).sum / ((3 : ℕ) : ℚ))) := by
  have hc := claim_C6 (fun _ => 1) 2 3 [(0, 1), (0, 2)] 42
  exact ⟨hc.1, hc.2.1 3 3 (by rfl), hc.2.2.2.1 (by decide) (by rfl)⟩

theorem mcIntegrateCall_fst_seeded (inst : MonteCarloIntegrator)
    (f : List ℚ → ℚ) (dim N : ℕ) (domain : List (ℚ × ℚ)) (s : ℕ) :
    (mcIntegrateCall inst f dim N domain (some s)).1 =
      integrate .MonteCarlo f dim N domain s := by
  simp only [mcIntegrateCall, integrate]
  cases hval : validateDomain dim domain
  · cases hres : resolvePointCount .MonteCarlo N dim <;> rfl
  · rfl

/-- Claim C7: for every fixed integer seed, domain and sample count, two
runs of Monte Carlo integration with identical arguments draw a
bit-identical sample point set and return the identical integral estimate,
regardless of the integrator instance's carried generator state (two-run
determinism under a supplied seed). -/
theorem claim_C7 (inst1 inst2 : MonteCarloIntegrator) (f : List ℚ → ℚ)
    (dim N : ℕ) (domain : List (ℚ × ℚ)) (s : ℕ) :
    mcDrawnPoints inst1 N domain (some s)
      = mcDrawnPoints inst2 N domain (some s) ∧
    (mcIntegrateCall inst1 f dim N domain (some s)).1
      = (mcIntegrateCall inst2 f dim N domain (some s)).1 ∧
    (mcIntegrateCall (mcIntegrateCall inst1 f dim N domain (some s)).2
        f dim N domain (some s)).1
      = (mcIntegrateCall inst1 f dim N domain (some s)).1 := by
  refine ⟨rfl, ?_, ?_⟩
  · rw [mcIntegrateCall_fst_seeded, mcIntegrateCall_fst_seeded]
  · rw [mcIntegrateCall_fst_seeded, mcIntegrateCall_fst_seeded]

theorem chunkAux_flatten {α : Type} (c : ℕ) :
    ∀ (fuel : ℕ) (xs : List α), (chunkAux fuel c xs).flatten = xs := by
  intro fuel
  induction fuel with
  | zero =>
      intro xs
      cases xs <;> simp [chunkAux]
  | succ k ih =>
      intro xs
      cases xs with
      | nil => simp [chunkAux]
      | cons x rest =>
          show (((x :: rest).take c :: chunkAux k c ((x :: rest).drop c))).flatten
            = x :: rest
          rw [List.flatten_cons, ih, List.take_append_drop]

theorem evalBatchChunked_eq (c : ℕ) (f : List ℚ → ℚ)
    (pts : List (List ℚ)) : evalBatchChunked c f pts = evalBatch f pts := by
  rw [evalBatchChunked, evalBatch, show (evalBatch f) = List.map f from rfl,
    ← List.map_flatten, chunkList, chunkAux_flatten]

/-- Claim C8: for every deterministic integrand and every evaluation point
set, chunked batch evaluation with any chunk size equals unchunked
evaluation: partitioning into ordered chunks, invoking the integrand per
chunk and concatenating preserves the value sequence, and hence the
integral estimate. -/
theorem claim_C8 (c : ℕ) (f : List ℚ → ℚ) (pts : List (List ℚ))
    (rule : Rule) (domain : List (ℚ × ℚ)) (n : ℕ) :
    (chunkList c pts).flatten = pts ∧
    evalBatchChunked c f pts = evalBatch f pts ∧
    gridEstimateChunked c rule domain n f = gridEstimate rule domain n f := by
  refine ⟨chunkAux_flatten c pts.length pts, evalBatchChunked_eq c f pts, ?_⟩
  rw [gridEstimateChunked, gridEstimate, evalBatchChunked_eq]

theorem integrate_validate_error (rule : Rule) (f : List ℚ → ℚ)
    (dim N : ℕ) (domain : List (ℚ × ℚ)) (seed : ℕ) (e : IntegrationError)
    (h : validateDomain dim domain = some e) :
    integrate rule f dim N domain seed = .error e := by
  simp [integrate, h]

theorem integrate_resolve_error (rule : Rule) (f : List ℚ → ℚ)
    (dim N : ℕ) (domain : List (ℚ × ℚ)) (seed : ℕ) (e : IntegrationError)
    (hv : validateDomain dim domain = none)
    (hr : resolvePointCount rule N dim = .error e) :
    integrate rule f dim N domain seed = .error e := by
  simp [integrate, hv, hr]

theorem validateDomain_length_ne (dim : ℕ) (domain : List (ℚ × ℚ))
    (h : domain.length ≠ dim) :
    validateDomain dim domain = some .InvalidDomain := by
  rw [validateDomain, if_pos h]

theorem validateDomain_bad_bounds (dim : ℕ) (domain : List (ℚ × ℚ))
    (h : ∃ ab ∈ domain, ab.2 ≤ ab.1) :
    validateDomain dim domain = some .InvalidDomain := by
  rw [validateDomain]
  split
  · rfl
  · rw [if_pos]
    rw [List.any_eq_true]
    obtain ⟨ab, hmem, hle⟩ := h
    exact ⟨ab, hmem, by simpa using hle⟩

/-- Claim C9: for every call to `integrate` with an invalid input — domain
length differing from the requested dimension, some axis with
`lower ≥ upper`, or a point budget below the rule's minimum — the call
raises the corresponding error kind (`InvalidDomain` or
`InvalidPointCount`), produces the same outcome for every integrand and
seed (no partial computation, validation before point construction), and
never returns a result in place of the error. -/
theorem claim_C9 (rule : Rule) (f g : List ℚ → ℚ) (dim N : ℕ)
    (domain : List (ℚ × ℚ)) (seed seed' : ℕ) :
    (domain.length ≠ dim →
      integrate rule f dim N domain seed = .error .InvalidDomain) ∧
    ((∃ ab ∈ domain, ab.2 ≤ ab.1) →
      integrate rule f dim N domain seed = .error .InvalidDomain) ∧
    (validateDomain dim domain = none →
      resolvePointCount rule N dim = .error .InvalidPointCount →
      integrate rule f dim N domain seed = .error .InvalidPointCount) ∧
    (validateDomain dim domain = none → rule ≠ .MonteCarlo →
      adjustCount rule (rootRound N dim) < minPoints rule →
      integrate rule f dim N domain seed = .error .InvalidPointCount) ∧
    (validateDomain dim domain = none → N < 1 →
      integrate .MonteCarlo f dim N domain seed =
        .error .InvalidPointCount) ∧
    ((validateDomain dim domain ≠ none ∨
        (∃ e, resolvePointCount rule N dim = .error e)) →
      integrate rule f dim N domain seed =
        integrate rule g dim N domain seed' ∧
      ∀ q, integrate rule f dim N domain seed ≠ .ok q) := by
  refine ⟨?_, ?_, ?_, ?_, ?_, ?_⟩
  · intro h
    exact integrate_validate_error rule f dim N domain seed _
      (validateDomain_length_ne dim domain h)
  · intro h
    exact integrate_validate_error rule f dim N domain seed _
      (validateDomain_bad_bounds dim domain h)
  · intro hv hr
    exact integrate_resolve_error rule f dim N domain seed _ hv hr
  · intro hv hrule hlt
    refine integrate_resolve_error rule f dim N domain seed _ hv ?_
    match rule, hrule with
    | .Trapezoid, _ =>
        rw [resolvePointCount_trapezoid,
          if_pos (by simpa [adjustCount, minPoints] using hlt)]
    | .Simpson, _ =>
        rw [resolvePointCount_simpson,
          if_pos (by simpa [minPoints] using hlt)]
  · intro hv hN
    refine integrate_resolve_error .MonteCarlo f dim N domain seed _ hv ?_
    rw [resolvePointCount_montecarlo, if_pos hN]
  · intro hbad
    rcases hbad with hv | ⟨e, hr⟩
    · obtain ⟨e, he⟩ : ∃ e, validateDomain dim domain = some e := by
        cases hx : validateDomain dim domain
        · exact absurd hx hv
        · exact ⟨_, rfl⟩
      rw [integrate_validate_error rule f dim N domain seed e he,
        integrate_validate_error rule g dim N domain seed' e he]
      exact ⟨rfl, fun q hc => by cases hc⟩
    · cases hx : validateDomain dim domain with
      | some e' =>
          rw [integrate_validate_error rule f dim N domain seed e' hx,
            integrate_validate_error rule g dim N domain seed' e' hx]
          exact ⟨rfl, fun q hc => by cases hc⟩
      | none =>
          rw [integrate_resolve_error rule f dim N domain seed e hx hr,
            integrate_resolve_error rule g dim N domain seed' e hx hr]
          exact ⟨rfl, fun q hc => by cases hc⟩

/-- Witness for claim C9: a 1-D request with an empty domain raises
`InvalidDomain`, and a Monte Carlo request with budget 0 on a valid domain
raises `InvalidPointCount`. -/
theorem claim_C9_witness :
    integrate .Trapezoid (fun _ => 0) 1 5 [] 0 = .error .InvalidDomain ∧
    integrate .MonteCarlo (fun _ => 0) 1 0 [(0, 1)] 0 =
      .error .InvalidPointCount :=
  ⟨(claim_C9 .Trapezoid (fun _ => 0) (fun _ => 0) 1 5 [] 0 0).1 (by decide),
   (claim_C9 .MonteCarlo (fun _ => 0) (fun _ => 0) 1 0 [(0, 1)] 0 0).2.2.2.2.1
     (by rfl) (by decide)⟩

/-- Claim C10: for every call to Trapezoid, Simpson or Monte Carlo
`integrate`, the caller-supplied integration domain is left unchanged by
the call (the engine only reads it), so the same domain can be passed to
successive `integrate` calls and each call behaves as if given a fresh
copy. -/
theorem claim_C10 (rule : Rule) (f : List ℚ → ℚ) (dim N : ℕ)
    (env : CallerEnv) (seed : ℕ) :
    (integrateCall rule f dim N env seed).2 = env ∧
    (integrateCall rule f dim N env seed).2.domain = env.domain ∧
    (integrateCall rule f dim N
        (integrateCall rule f dim N env seed).2 seed).1
      = (integrateCall rule f dim N env seed).1 :=
  ⟨rfl, rfl, rfl⟩

end Torchquad
